import Mathlib

/-!
Verification of the arma-code content-processing pipeline and tutor engine.

This file gives a shallow embedding, in Lean, of the algorithmic core of the
backend: the text chunker (`MaterialProcessingService._split_into_chunks` and
`._split_by_sentences`), the processing pipeline (`process_material`,
`_save_all_results`, `_create_embeddings`), the quiz validation loop of
`OpenAIService.generate_quiz`, the RAG context retrieval
(`TutorService._find_relevant_context` / `_fallback_context`), the semantic
answer cache (`_check_semantic_cache` / `_store_semantic_cache`), the
`send_message` orchestration, and the `_cosine_distance` helper.

Python strings are modelled as `List Char`; Python floats as real numbers
(for the cosine-distance layer) or as rationals (for pre-computed distances
returned by the vector store).  Database tables and the Redis cache are
modelled as explicit record state; exceptions are modelled as values.
-/

set_option autoImplicit false
set_option maxRecDepth 4000

namespace ArmaCode

/-! ## Python string primitives

The chunker relies on `str.split("\n\n")`, `str.strip()` and `str.lstrip()`.
We model them over `List Char`.  `isPySpace` covers the ASCII whitespace
characters that Python's `str.strip()` removes. -/

/-- ASCII whitespace recognized by Python's str.strip / str.lstrip. -/
def isPySpace (c : Char) : Bool :=
  c = ' ' || c = '\t' || c = '\n' || c = '\r' || c = '\x0b' || c = '\x0c'

/-- Python str.lstrip(): drop leading whitespace. -/
def pyLstrip (s : List Char) : List Char := s.dropWhile isPySpace

/-- Python str.rstrip(): drop trailing whitespace. -/
def pyRstrip (s : List Char) : List Char := (s.reverse.dropWhile isPySpace).reverse

/-- Python str.strip(): drop whitespace at both ends. -/
def pyStrip (s : List Char) : List Char := pyRstrip (pyLstrip s)

/-- Helper for `splitParas`: prepend a character to the first field of a
split result (there is always at least one field). -/
def consHead (c : Char) : List (List Char) → List (List Char)
  | [] => [[c]]
  | p :: ps => (c :: p) :: ps

/-- Python text.split("\x5cn\x5cn"): split on non-overlapping occurrences of
the two-character separator, leftmost first. -/
def splitParas : List Char → List (List Char)
  | [] => [[]]
  | '\n' :: '\n' :: rest => [] :: splitParas rest
  | c :: rest => consHead c (splitParas rest)

/-- The paragraph separator "\x5cn\x5cn". -/
def sepNN : List Char := ['\n', '\n']

/-- The non-whitespace content of a string: all characters that survive
`isPySpace` filtering, in order. -/
def nonWS (s : List Char) : List Char := s.filter (fun c => !isPySpace c)

/-! ## The chunker

`split_by_sentences` embeds `MaterialProcessingService._split_by_sentences`:
a window of `chunk_size` characters is cut at the nearest sentence terminator
found walking backward from the window end (exclusive lower bound at
`start + chunk_size / 2`), else cut hard at the window end.

`split_into_chunks` embeds `MaterialProcessingService._split_into_chunks`:
split into paragraphs on blank lines, strip each, drop empty ones, then
greedily accumulate paragraphs; a paragraph longer than the budget is
sub-split by `split_by_sentences`. -/

/-- Sentence-ending characters used by `_split_by_sentences`. -/
def isSentenceEnd (c : Char) : Bool :=
  c = '.' || c = '!' || c = '?' || c = '\n'

/-- The backward walk of `_split_by_sentences`: starting at index `i` and
stopping (exclusive) at `lo`, return `some (j + 1)` for the largest index
`j ≤ i` with `j > lo` holding a sentence terminator, else `none`.
This models Python's `for i in range(end, lo, -1)` search. -/
def walkBack (text : List Char) (lo : Nat) : Nat → Option Nat
  | 0 => none
  | i + 1 =>
    if i + 1 ≤ lo then none
    else if isSentenceEnd (text.getD (i + 1) ' ') then some (i + 2)
    else walkBack text lo i

/-- The while-loop of `_split_by_sentences`, written with explicit fuel so
that it is structurally recursive and computable.  The source loop advances
`start` by at least one position per iteration whenever `chunk_size ≥ 1`, so
`text.length + 1` units of fuel (supplied by `split_by_sentences`) always
suffice; the fuel-exhausted branch is unreachable in that regime.  (For
`chunk_size = 0` the source loop does not terminate; it is never called with
that value.) -/
def sbsLoop (text : List Char) (chunk_size : Nat) : Nat → Nat → List (List Char)
  | 0, _ => []
  | fuel + 1, start =>
    if start < text.length then
      let endIdx := start + chunk_size
      if text.length ≤ endIdx then
        [pyStrip (text.drop start)]
      else
        let lo := max (start + chunk_size / 2) start
        let boundary := (walkBack text lo endIdx).getD endIdx
        let chunk := pyStrip ((text.drop start).take (boundary - start))
        let rest := sbsLoop text chunk_size fuel boundary
        if chunk = [] then rest else chunk :: rest
    else []

/-- `MaterialProcessingService._split_by_sentences`. -/
def split_by_sentences (text : List Char) (chunk_size : Nat) : List (List Char) :=
  sbsLoop text chunk_size (text.length + 1) 0

/-- One iteration of the paragraph-accumulation loop of
`_split_into_chunks`.  State is `(chunks so far, current buffer)`. -/
def chunkStep (chunk_size : Nat) (st : List (List Char) × List Char)
    (para : List Char) : List (List Char) × List Char :=
  let chunks := st.1
  let current := st.2
  if current.length + para.length + 2 ≤ chunk_size then
    (chunks, pyLstrip (current ++ sepNN ++ para))
  else
    let chunks' := if current = [] then chunks else chunks ++ [current]
    if para.length ≤ chunk_size then
      (chunks', para)
    else
      let sub := split_by_sentences para chunk_size
      if sub = [] then (chunks', [])
      else (chunks' ++ sub.dropLast, sub.getLastD [])

/-- `MaterialProcessingService._split_into_chunks`. -/
def split_into_chunks (text : List Char) (chunk_size : Nat) : List (List Char) :=
  if text = [] then []
  else
    let paragraphs := ((splitParas text).map pyStrip).filter (fun p => ¬ p = [])
    let result := paragraphs.foldl (chunkStep chunk_size) ([], [])
    if result.2 = [] then result.1 else result.1 ++ [result.2]

/-- Concrete input for the spec's chunker example: three paragraphs of
40, 60 and 90 characters separated by blank lines. -/
def c4text : List Char :=
  List.replicate 40 'a' ++ sepNN ++ List.replicate 60 'b' ++ sepNN ++
    List.replicate 90 'c'

/-- The non-whitespace content of a chunk list, in order: the measure used
to state that chunking loses no content. -/
def contentOf (l : List (List Char)) : List Char := (l.map nonWS).flatten

/-- Concrete input showing the off-by-one of the sentence sub-splitter: a
single six-character paragraph whose sentence terminator sits exactly one
position past a four-character window. -/
def c7text : List Char := ['a', 'a', 'a', 'a', '.', 'x']

/-! ## The processing pipeline

`process_material` runs four generation calls concurrently via
`asyncio.gather(..., return_exceptions=True)`, re-raises the first captured
exception in the fixed order summary / notes / flashcards / quiz, saves all
four artifacts in one transaction, then rebuilds the embedding set.  The
Celery task `process_material_task` records the raised error on the
material.  We model the database state for one material as a record, the
gathered results as values, and the pipeline as a state transformer. -/

/-- Material processing status (`ProcessingStatus` in models/material.py). -/
inductive ProcessingStatus
  | queued
  | processing
  | completed
  | failed
deriving DecidableEq, Repr

/-- A persisted flashcard row, as written by `_save_all_results`. -/
structure FlashRow where
  question : String
  answer : String
deriving DecidableEq, Repr

/-- A persisted quiz-question row, as written by `_save_all_results`. -/
structure QuizRow where
  question : String
  option_a : String
  option_b : String
  option_c : String
  option_d : String
  correct_option : String
deriving DecidableEq, Repr

/-- A persisted `MaterialEmbedding` row. -/
structure EmbRow where
  chunk_index : Nat
  chunk_text : List Char
  embedding : List ℚ
deriving DecidableEq, Repr

/-- The database state relevant to one material, plus a trace flag that
records whether the embedding step (`_create_embeddings`) was entered. -/
structure MaterialState where
  status : ProcessingStatus
  progress : Nat
  error : Option String
  summary : Option String
  notes : Option String
  flashcards : List FlashRow
  quizzes : List QuizRow
  embeddings : List EmbRow
  embedStepRan : Bool
deriving DecidableEq, Repr

/-- Outcome of one generation call as observed after
`asyncio.gather(..., return_exceptions=True)`: a value or a captured
exception. -/
inductive GenOut (α : Type)
  | ok (val : α)
  | exn (msg : String)
deriving DecidableEq, Repr

/-- The four gathered generation results, in the positional order of the
`asyncio.gather` call in `process_material`. -/
structure GenResults where
  summary : GenOut String
  notes : GenOut String
  flashcards : GenOut (List FlashRow)
  quiz : GenOut (List QuizRow)
deriving DecidableEq, Repr

/-- The first captured exception in the fixed check order summary, notes,
flashcards, quiz — mirroring the loop that re-raises the first exception it
sees. -/
def firstFailure (r : GenResults) : Option String :=
  match r.summary with
  | .exn e => some e
  | .ok _ =>
    match r.notes with
    | .exn e => some e
    | .ok _ =>
      match r.flashcards with
      | .exn e => some e
      | .ok _ =>
        match r.quiz with
        | .exn e => some e
        | .ok _ => none

/-- `MaterialProcessingService._save_all_results`: a single transaction that
upserts the summary, upserts the notes, and replaces the flashcard and
quiz-question sets. -/
def save_all_results (st : MaterialState) (summary_text notes_text : String)
    (flashcards : List FlashRow) (quiz_questions : List QuizRow) :
    MaterialState :=
  { st with
    summary := some summary_text
    notes := some notes_text
    flashcards := flashcards
    quizzes := quiz_questions }

/-- `MaterialProcessingService._create_embeddings`: chunk the text, embed
every chunk (`embed_batch` abstracts `create_embeddings_batch`), and replace
the prior embedding set in one transaction.  When the chunker yields no
chunks the function returns early, before the delete: the stored rows are
left untouched. -/
def create_embeddings (embed_batch : List (List Char) → List (List ℚ))
    (chunk_size : Nat) (st : MaterialState) (full_text : List Char) :
    MaterialState :=
  let st := { st with embedStepRan := true }
  let chunks := split_into_chunks full_text chunk_size
  if chunks = [] then st
  else
    let embeddings := embed_batch chunks
    { st with
      embeddings := ((chunks.zip embeddings).enum).map
        (fun p => ⟨p.1, p.2.1, p.2.2⟩) }

/-- `MaterialProcessingService.process_material`, combined with the error
recording of `process_material_task`: the first captured generation
exception (in check order) aborts the run before anything is saved and
becomes the recorded terminal error; on success all four artifacts are
saved, embeddings are rebuilt, and the material completes at 100%. -/
def process_material (embed_batch : List (List Char) → List (List ℚ))
    (chunk_size : Nat) (full_text : List Char) (r : GenResults)
    (st : MaterialState) : MaterialState :=
  let st1 := { st with status := .processing, progress := 35 }
  match r.summary, r.notes, r.flashcards, r.quiz with
  | .exn e, _, _, _ =>
    { st1 with status := .failed, progress := 0, error := some e }
  | _, .exn e, _, _ =>
    { st1 with status := .failed, progress := 0, error := some e }
  | _, _, .exn e, _ =>
    { st1 with status := .failed, progress := 0, error := some e }
  | _, _, _, .exn e =>
    { st1 with status := .failed, progress := 0, error := some e }
  | .ok s, .ok n, .ok f, .ok q =>
    let st2 := save_all_results st1 s n f q
    let st3 := { st2 with progress := 85 }
    let st4 := create_embeddings embed_batch chunk_size st3 full_text
    let st5 := { st4 with progress := 95 }
    { st5 with status := .completed, progress := 100 }

/-- A fresh material state with nothing persisted. -/
def st0 : MaterialState := ⟨.queued, 0, none, none, none, [], [], [], false⟩

/-- A stale embedding row left over from a prior processing run. -/
def staleEmb : EmbRow := ⟨0, ['z'], [1]⟩

/-- A material state carrying one embedding row from a prior run. -/
def stStale : MaterialState := { st0 with embeddings := [staleEmb] }

/-- Gathered results in which all four generation calls succeeded. -/
def genAllOk : GenResults := ⟨.ok "s", .ok "n", .ok [], .ok []⟩

/-- Gathered results in which only the quiz generation call failed. -/
def genQuizFails : GenResults := ⟨.ok "s", .ok "n", .ok [], .exn "boom"⟩

/-- A concrete embedding gateway returning one empty vector per chunk. -/
def embedBatchNil : List (List Char) → List (List ℚ) :=
  fun chunks => chunks.map (fun _ => [])

/-! ## Quiz validation

`OpenAIService.generate_quiz` parses the model's JSON `questions` array and
validates each item: all six fields must be present, a bare-letter
`correct_option` is coerced to the matching option's text, and the final
`correct_option` must equal one of the four option texts; failing items are
dropped, the rest are returned in order. -/

/-- A quiz item as parsed from the model's JSON, before validation: any of
the six expected keys may be absent. -/
structure RawQuizItem where
  question : Option String
  option_a : Option String
  option_b : Option String
  option_c : Option String
  option_d : Option String
  correct_option : Option String
deriving DecidableEq, Repr

/-- The per-item validation of `generate_quiz`: require all six fields,
coerce a bare letter answer to the matching option text, keep the item only
if the resulting `correct_option` is the literal text of one of the four
options. -/
def validateQuizItem (raw : RawQuizItem) : Option QuizRow :=
  match raw.question, raw.option_a, raw.option_b, raw.option_c,
      raw.option_d, raw.correct_option with
  | some qq, some a, some b, some c, some d, some correct =>
    let correct' :=
      if correct = "a" then a
      else if correct = "b" then b
      else if correct = "c" then c
      else if correct = "d" then d
      else correct
    if correct' = a ∨ correct' = b ∨ correct' = c ∨ correct' = d then
      some ⟨qq, a, b, c, d, correct'⟩
    else none
  | _, _, _, _, _, _ => none

/-- The validation loop of `generate_quiz` over the parsed `questions`
array: malformed items are silently dropped, valid ones kept in order. -/
def validateQuiz (items : List RawQuizItem) : List QuizRow :=
  items.filterMap validateQuizItem

/-- A well-formed raw quiz item with a bare-letter answer. -/
def rawGood : RawQuizItem :=
  ⟨some "q", some "x", some "y", some "z", some "w", some "a"⟩

/-- A malformed raw quiz item: its answer matches no option. -/
def rawBad : RawQuizItem :=
  ⟨some "q2", some "x", some "y", some "z", some "w", some "nope"⟩

/-! ## RAG context retrieval

`TutorService._find_relevant_context` issues a pgvector similarity query
(top 5 stored chunks for the material, ordered by ascending cosine
distance), filters out rows at distance at least 0.70, and joins the
survivors with blank lines; on an empty result, an all-filtered result, or
a raised exception (after rolling back) it returns `_fallback_context`.
We model the database at its interface: `stored` carries each stored chunk
text with the distance the pgvector operator computes for it, and the
`ORDER BY distance ASC LIMIT top_k` clause is modelled by sorting. -/

/-- Module-level constant `_DISTANCE_THRESHOLD = 0.70` of tutor_service.py. -/
def DISTANCE_THRESHOLD : ℚ := 70 / 100

/-- Comparison by distance, the sort key of the SQL `ORDER BY distance`. -/
def distLE (x y : List Char × ℚ) : Prop := x.2 ≤ y.2

instance : DecidableRel distLE :=
  fun x y => inferInstanceAs (Decidable (x.2 ≤ y.2))

instance : IsTotal (List Char × ℚ) distLE := ⟨fun x y => le_total x.2 y.2⟩

instance : IsTrans (List Char × ℚ) distLE :=
  ⟨fun _ _ _ h1 h2 => le_trans h1 h2⟩

/-- The SQL query of `_find_relevant_context`: all stored rows for the
material, ordered by ascending distance, limited to `top_k`. -/
def vectorQuery (stored : List (List Char × ℚ)) (top_k : Nat) :
    List (List Char × ℚ) :=
  (List.insertionSort distLE stored).take top_k

/-- Python "\x5cn\x5cn".join: interleave chunk texts with blank lines. -/
def joinSep : List (List Char) → List Char
  | [] => []
  | [c] => c
  | c :: rest => c ++ '\n' :: '\n' :: joinSep rest

/-- `TutorService._fallback_context`: the first 5000 characters of the
material's full text, or a fixed message when the material has no text. -/
def fallback_context (full_text : List Char) : List Char :=
  if full_text = [] then
    String.toList "No content available for this material."
  else full_text.take 5000

/-- `TutorService._find_relevant_context` with top_k = 5 (the source
default used by send_message).  `backendOk = false` models the vector query
raising: the except branch rolls the session back and falls back. -/
def find_relevant_context (stored : List (List Char × ℚ)) (backendOk : Bool)
    (full_text : List Char) : List Char :=
  if backendOk then
    let rows := vectorQuery stored 5
    if rows = [] then fallback_context full_text
    else
      let relevant := rows.filter (fun r => r.2 < DISTANCE_THRESHOLD)
      if relevant = [] then fallback_context full_text
      else joinSep (relevant.map Prod.fst)
  else fallback_context full_text

/-! ## Cosine distance, semantic cache, and the tutor turn

`_cosine_distance` works on float vectors via `math.sqrt`; we model floats
as real numbers.  The Redis cache is modelled at its interface: `conn`
holds the parsed (embedding, answer) entries for the material (or `none`
when `_get_redis` fails), `keysOk` models the `keys()` call raising, and
`setOk` models `setex` raising. -/

section RealModel

open scoped Classical

/-- Module-level constant `_SEMANTIC_SIM_THRESHOLD = 0.12`. -/
def SEMANTIC_SIM_THRESHOLD : ℝ := 0.12

/-- `_cosine_distance` of tutor_service.py: 1 minus the normalized dot
product, guarded to return exactly 1.0 when either norm is zero. -/
noncomputable def cosine_distance (a b : List ℝ) : ℝ :=
  let dot := ((a.zip b).map (fun p => p.1 * p.2)).sum
  let norm_a := Real.sqrt ((a.map (fun x => x * x)).sum)
  let norm_b := Real.sqrt ((b.map (fun x => x * x)).sum)
  if norm_a = 0 ∨ norm_b = 0 then 1 else 1 - dot / (norm_a * norm_b)

/-- One parsed semantic-cache entry: a stored question embedding and the
answer cached for it. -/
structure CacheEntry where
  embedding : List ℝ
  answer : String

/-- The Redis client at its interface boundary. -/
structure RedisModel where
  conn : Option (List CacheEntry)
  keysOk : Bool
  setOk : Bool

/-- `TutorService._check_semantic_cache`: miss when the client is
unavailable or `keys()` raises; otherwise return the answer of the first
entry within the similarity threshold, in enumeration order. -/
noncomputable def check_semantic_cache (r : RedisModel)
    (query_embedding : List ℝ) : Option String :=
  match r.conn with
  | none => none
  | some entries =>
    if r.keysOk then
      (entries.find? fun e =>
        decide (cosine_distance query_embedding e.embedding <
          SEMANTIC_SIM_THRESHOLD)).map CacheEntry.answer
    else none

/-- `TutorService._store_semantic_cache`: silently do nothing when the
client is unavailable or `setex` raises; otherwise add a fresh entry (keys
are unique per digest, so a new question always creates a new entry). -/
def store_semantic_cache (r : RedisModel) (query_embedding : List ℝ)
    (answer : String) : RedisModel :=
  match r.conn with
  | none => r
  | some entries =>
    if r.setOk then
      { r with conn := some (entries ++ [⟨query_embedding, answer⟩]) }
    else r

/-- One persisted `TutorMessage` row. -/
structure TutorMsg where
  role : String
  content : String
  context : String
deriving DecidableEq, Repr

/-- The observable outcome of one `send_message` turn: the returned answer,
the final conversation history, whether `chat_with_context` was invoked,
and the final cache state. -/
structure SendOutcome where
  answer : String
  messages : List TutorMsg
  genCalled : Bool
  redis : RedisModel

/-- `TutorService.send_message` for an already-embedded question
(`query_embedding` abstracts `create_embedding(user_message)`, and
`chat_answer` abstracts what `chat_with_context` returns for this question
with the retrieved context and history): on a cache hit the cached answer
is returned and both turns are saved without calling generation; on a miss
generation runs, its answer is cached and both turns are saved. -/
noncomputable def send_message (r : RedisModel) (query_embedding : List ℝ)
    (user_message context : String) (chat_answer : String)
    (history : List TutorMsg) : SendOutcome :=
  match check_semantic_cache r query_embedding with
  | some cached =>
    ⟨cached,
      history ++ [⟨"user", user_message, context⟩,
        ⟨"assistant", cached, context⟩],
      false, r⟩
  | none =>
    ⟨chat_answer,
      history ++ [⟨"user", user_message, context⟩,
        ⟨"assistant", chat_answer, context⟩],
      true, store_semantic_cache r query_embedding chat_answer⟩

/-- A Redis model with no usable connection. -/
def noCacheRedis : RedisModel := ⟨none, true, true⟩

/-- A concrete cache entry at embedding [1]. -/
noncomputable def entryParis : CacheEntry := ⟨[1], "paris"⟩

/-- A healthy Redis model holding exactly `entryParis`. -/
noncomputable def cacheR1 : RedisModel := ⟨some [entryParis], true, true⟩

end RealModel

end ArmaCode

namespace ArmaCode

/-- C4: the spec's example scenario claims the chunker merges the 40- and
60-character paragraphs under `target_size = 100`; in the source the greedy
test counts a two-character separator (`len(current) + len(para) + 2`),
40 + 60 + 2 = 102 > 100, so the paragraphs are not merged and three chunks
are produced.  This refutes the claim at the concrete example input. -/
theorem C4_counterexample :
    split_into_chunks c4text 100 =
      [List.replicate 40 'a', List.replicate 60 'b', List.replicate 90 'c'] ∧
    (split_into_chunks c4text 100).length ≠ 2 := by
  constructor
  · decide
  · decide

/-- C4 (amended): for three paragraphs of 40, 60 and 90 characters and
`target_size = 100`, the chunker produces exactly 3 chunks, one per
paragraph, because the two-character paragraph joiner counts against the
budget (40 + 60 + 2 = 102 > 100). -/
theorem C4_chunker_example :
    split_into_chunks c4text 100 =
      [List.replicate 40 'a', List.replicate 60 'b', List.replicate 90 'c'] := by
  decide

/-! ### Whitespace bookkeeping lemmas -/

theorem nonWS_append (a b : List Char) : nonWS (a ++ b) = nonWS a ++ nonWS b :=
  List.filter_append a b

theorem nonWS_sepNN : nonWS sepNN = [] := by decide

theorem nonWS_dropWhile (s : List Char) :
    nonWS (s.dropWhile isPySpace) = nonWS s := by
  induction s with
  | nil => rfl
  | cons c t ih =>
    by_cases hc : isPySpace c = true
    · simp [nonWS, List.dropWhile, List.filter_cons, hc] at ih ⊢
      exact ih
    · simp [List.dropWhile, hc]

theorem nonWS_reverse (s : List Char) : nonWS s.reverse = (nonWS s).reverse :=
  List.filter_reverse _ s

theorem nonWS_pyLstrip (s : List Char) : nonWS (pyLstrip s) = nonWS s :=
  nonWS_dropWhile s

theorem nonWS_pyRstrip (s : List Char) : nonWS (pyRstrip s) = nonWS s := by
  rw [pyRstrip, nonWS_reverse, nonWS_dropWhile, nonWS_reverse, List.reverse_reverse]

theorem nonWS_pyStrip (s : List Char) : nonWS (pyStrip s) = nonWS s := by
  rw [pyStrip, nonWS_pyRstrip, nonWS_pyLstrip]

theorem length_pyLstrip_le (s : List Char) : (pyLstrip s).length ≤ s.length :=
  (List.dropWhile_sublist _).length_le

theorem length_pyRstrip_le (s : List Char) : (pyRstrip s).length ≤ s.length := by
  have := (List.dropWhile_sublist (l := s.reverse) isPySpace).length_le
  simpa [pyRstrip] using this

theorem length_pyStrip_le (s : List Char) : (pyStrip s).length ≤ s.length :=
  (length_pyRstrip_le _).trans (length_pyLstrip_le s)

/-! ### Paragraph splitting preserves non-whitespace content -/

theorem contentOf_consHead (c : Char) (l : List (List Char)) :
    contentOf (consHead c l) = nonWS [c] ++ contentOf l := by
  cases l with
  | nil => simp [consHead, contentOf]
  | cons p ps =>
    simp only [consHead, contentOf, List.map_cons, List.flatten_cons]
    rw [show (c :: p) = [c] ++ p from rfl, nonWS_append, List.append_assoc]

theorem contentOf_splitParas (s : List Char) :
    contentOf (splitParas s) = nonWS s := by
  induction s using splitParas.induct
  case case1 => simp [splitParas, contentOf, nonWS]
  case case2 rest ih =>
    have h2 : nonWS ('\n' :: '\n' :: rest) = nonWS rest := by
      simp [nonWS, List.filter_cons, isPySpace]
    simp [splitParas, contentOf, List.flatten_cons, nonWS, List.filter_cons,
      isPySpace] at ih ⊢
    exact ih
  case case3 c rest h ih =>
    simp only [splitParas, h, contentOf_consHead, ih]
    rw [show (c :: rest) = [c] ++ rest from rfl, nonWS_append]

theorem contentOf_nil : contentOf [] = [] := rfl

theorem contentOf_cons (x : List Char) (l : List (List Char)) :
    contentOf (x :: l) = nonWS x ++ contentOf l := rfl

theorem contentOf_append (a b : List (List Char)) :
    contentOf (a ++ b) = contentOf a ++ contentOf b := by
  simp [contentOf]

theorem contentOf_stripFilter (ps : List (List Char)) :
    contentOf ((ps.map pyStrip).filter (fun p => ¬ p = [])) = contentOf ps := by
  induction ps with
  | nil => rfl
  | cons p ps ih =>
    by_cases hp : pyStrip p = []
    · have hc : nonWS p = [] := by rw [← nonWS_pyStrip, hp]; rfl
      simp [List.filter_cons, hp, contentOf, hc] at ih ⊢
      exact ih
    · simp [List.filter_cons, hp, contentOf] at ih ⊢
      rw [nonWS_pyStrip]
      exact congrArg (nonWS p ++ ·) ih

end ArmaCode

namespace ArmaCode

/-! ### Sentence sub-splitting: bounds and content preservation -/

theorem walkBack_some_le (text : List Char) (lo : Nat) :
    ∀ i b, walkBack text lo i = some b → b ≤ i + 1 := by
  intro i
  induction i with
  | zero => intro b h; exact absurd h (by simp [walkBack])
  | succ i ih =>
    intro b h
    rw [walkBack] at h
    split at h
    · exact absurd h (by simp)
    · split at h
      · cases h; omega
      · exact (ih b h).trans (by omega)

theorem walkBack_some_gt (text : List Char) (lo : Nat) :
    ∀ i b, walkBack text lo i = some b → lo + 2 ≤ b := by
  intro i
  induction i with
  | zero => intro b h; exact absurd h (by simp [walkBack])
  | succ i ih =>
    intro b h
    rw [walkBack] at h
    split at h
    · exact absurd h (by simp)
    · next h1 =>
      split at h
      · cases h; omega
      · exact ih b h

theorem nonWS_drop_split (text : List Char) (start B : Nat) (h : start ≤ B) :
    nonWS (text.drop start) =
      nonWS ((text.drop start).take (B - start)) ++ nonWS (text.drop B) := by
  rw [← nonWS_append]
  congr 1
  rw [show text.drop B = (text.drop start).drop (B - start) by
        rw [List.drop_drop]; congr 1; omega]
  exact (List.take_append_drop _ _).symm

theorem sbsLoop_length_le (text : List Char) (cs : Nat) :
    ∀ fuel start c, c ∈ sbsLoop text cs fuel start → c.length ≤ cs + 1 := by
  intro fuel
  induction fuel with
  | zero => intro start c hc; simp [sbsLoop] at hc
  | succ fuel ih =>
    intro start c hc
    by_cases hstart : start < text.length
    · by_cases hend : text.length ≤ start + cs
      · simp only [sbsLoop, if_pos hstart, if_pos hend] at hc
        simp only [List.mem_singleton] at hc
        subst hc
        have h1 := length_pyStrip_le (text.drop start)
        have h2 : (text.drop start).length = text.length - start := by simp
        omega
      · simp only [sbsLoop, if_pos hstart, if_neg hend] at hc
        set B := (walkBack text (max (start + cs / 2) start)
          (start + cs)).getD (start + cs) with hB
        have hBle : B ≤ start + cs + 1 := by
          rcases hw : walkBack text (max (start + cs / 2) start) (start + cs)
            with _ | b
          · rw [hB, hw]; simp
          · have := walkBack_some_le text _ _ _ hw
            rw [hB, hw]
            simpa using this
        by_cases hch : pyStrip ((text.drop start).take (B - start)) = []
        · rw [if_pos hch] at hc
          exact ih B c hc
        · rw [if_neg hch] at hc
          rcases List.mem_cons.mp hc with hc | hc
          · subst hc
            have h1 := length_pyStrip_le ((text.drop start).take (B - start))
            have h2 := List.length_take_le (B - start) (text.drop start)
            omega
          · exact ih B c hc
    · simp only [sbsLoop, if_neg hstart] at hc
      exact absurd hc (List.not_mem_nil c)

theorem sbsLoop_content (text : List Char) (cs : Nat) (hcs : 1 ≤ cs) :
    ∀ fuel start, text.length - start ≤ fuel →
      contentOf (sbsLoop text cs fuel start) = nonWS (text.drop start) := by
  intro fuel
  induction fuel with
  | zero =>
    intro start hf
    have hd : text.drop start = [] := List.drop_eq_nil_of_le (by omega)
    simp [sbsLoop, contentOf, hd, nonWS]
  | succ fuel ih =>
    intro start hf
    by_cases hstart : start < text.length
    · by_cases hend : text.length ≤ start + cs
      · simp only [sbsLoop, if_pos hstart, if_pos hend]
        rw [contentOf_cons, contentOf_nil, List.append_nil, nonWS_pyStrip]
      · simp only [sbsLoop, if_pos hstart, if_neg hend]
        set B := (walkBack text (max (start + cs / 2) start)
          (start + cs)).getD (start + cs) with hB
        have hBgt : start + 1 ≤ B := by
          have hlo := le_max_right (start + cs / 2) start
          rcases hw : walkBack text (max (start + cs / 2) start) (start + cs)
            with _ | b
          · rw [hB, hw]; simp; omega
          · have := walkBack_some_gt text _ _ _ hw
            rw [hB, hw]
            simp only [Option.getD_some]
            omega
        have hrec := ih B (by omega)
        have hsplit := nonWS_drop_split text start B (by omega)
        by_cases hch : pyStrip ((text.drop start).take (B - start)) = []
        · rw [if_pos hch, hrec, hsplit]
          have hz : nonWS ((text.drop start).take (B - start)) = [] := by
            rw [← nonWS_pyStrip, hch]; rfl
          rw [hz, List.nil_append]
        · rw [if_neg hch, contentOf_cons, nonWS_pyStrip, hrec, hsplit]
    · simp only [sbsLoop, if_neg hstart]
      have hd : text.drop start = [] := List.drop_eq_nil_of_le (by omega)
      simp [contentOf, hd, nonWS]

theorem split_by_sentences_content (para : List Char) (cs : Nat) (hcs : 1 ≤ cs) :
    contentOf (split_by_sentences para cs) = nonWS para := by
  have := sbsLoop_content para cs hcs (para.length + 1) 0 (by omega)
  simpa [split_by_sentences] using this

theorem split_by_sentences_length_le (para : List Char) (cs : Nat) :
    ∀ c ∈ split_by_sentences para cs, c.length ≤ cs + 1 := fun c hc =>
  sbsLoop_length_le para cs (para.length + 1) 0 c hc

end ArmaCode

namespace ArmaCode

/-! ### Greedy accumulation: bounds and content preservation -/

theorem chunkStep_bound (cs : Nat) (st : List (List Char) × List Char)
    (para : List Char)
    (hchunks : ∀ c ∈ st.1, c.length ≤ cs + 1) (hcur : st.2.length ≤ cs + 1) :
    (∀ c ∈ (chunkStep cs st para).1, c.length ≤ cs + 1) ∧
      (chunkStep cs st para).2.length ≤ cs + 1 := by
  by_cases hacc : st.2.length + para.length + 2 ≤ cs
  · simp only [chunkStep, if_pos hacc]
    refine ⟨hchunks, ?_⟩
    have h1 := length_pyLstrip_le (st.2 ++ sepNN ++ para)
    have h2 : (st.2 ++ sepNN ++ para).length = st.2.length + 2 + para.length := by
      simp [sepNN]; omega
    omega
  · simp only [chunkStep, if_neg hacc]
    have hflush : ∀ c ∈ (if st.2 = [] then st.1 else st.1 ++ [st.2]),
        c.length ≤ cs + 1 := by
      by_cases hc : st.2 = []
      · simpa [hc] using hchunks
      · intro c hmem
        rw [if_neg hc] at hmem
        rcases List.mem_append.mp hmem with h | h
        · exact hchunks c h
        · simp only [List.mem_singleton] at h; subst h; exact hcur
    by_cases hfit : para.length ≤ cs
    · simp only [if_pos hfit]
      exact ⟨hflush, by omega⟩
    · simp only [if_neg hfit]
      by_cases hsub : split_by_sentences para cs = []
      · simp only [if_pos hsub]
        exact ⟨hflush, by simp⟩
      · simp only [if_neg hsub]
        constructor
        · intro c hmem
          rcases List.mem_append.mp hmem with h | h
          · exact hflush c h
          · exact split_by_sentences_length_le para cs c
              ((List.dropLast_sublist _).subset h)
        · rcases List.eq_nil_or_concat (split_by_sentences para cs)
            with h | ⟨l, a, h⟩
          · exact absurd h hsub
          · rw [List.concat_eq_append] at h
            rw [h, List.getLastD_concat]
            exact split_by_sentences_length_le para cs a (by rw [h]; simp)

theorem chunkStep_content (cs : Nat) (hcs : 1 ≤ cs)
    (st : List (List Char) × List Char) (para : List Char) :
    contentOf (chunkStep cs st para).1 ++ nonWS (chunkStep cs st para).2 =
      contentOf st.1 ++ nonWS st.2 ++ nonWS para := by
  have hflush : contentOf (if st.2 = [] then st.1 else st.1 ++ [st.2]) =
      contentOf st.1 ++ nonWS st.2 := by
    by_cases hc : st.2 = []
    · rw [if_pos hc, hc]
      simp [nonWS]
    · rw [if_neg hc, contentOf_append, contentOf_cons, contentOf_nil,
        List.append_nil]
  by_cases hacc : st.2.length + para.length + 2 ≤ cs
  · simp only [chunkStep, if_pos hacc]
    rw [nonWS_pyLstrip, nonWS_append, nonWS_append, nonWS_sepNN,
      List.append_nil, List.append_assoc]
  · simp only [chunkStep, if_neg hacc]
    by_cases hfit : para.length ≤ cs
    · simp only [if_pos hfit]
      rw [hflush]
    · simp only [if_neg hfit]
      have hsubc := split_by_sentences_content para cs hcs
      by_cases hsub : split_by_sentences para cs = []
      · simp only [if_pos hsub]
        rw [hsub] at hsubc
        rw [hflush, ← hsubc, contentOf_nil]
        simp [nonWS]
      · simp only [if_neg hsub]
        rcases List.eq_nil_or_concat (split_by_sentences para cs)
          with h | ⟨l, a, h⟩
        · exact absurd h hsub
        · rw [List.concat_eq_append] at h
          rw [h] at hsubc
          rw [h, List.dropLast_concat, List.getLastD_concat, contentOf_append,
            hflush, ← hsubc, contentOf_append, contentOf_cons, contentOf_nil,
            List.append_nil, List.append_assoc]

theorem foldl_chunkStep_bound (cs : Nat) (paras : List (List Char)) :
    ∀ st, (∀ c ∈ st.1, c.length ≤ cs + 1) → st.2.length ≤ cs + 1 →
      (∀ c ∈ (paras.foldl (chunkStep cs) st).1, c.length ≤ cs + 1) ∧
        (paras.foldl (chunkStep cs) st).2.length ≤ cs + 1 := by
  induction paras with
  | nil => intro st h1 h2; exact ⟨h1, h2⟩
  | cons p ps ih =>
    intro st h1 h2
    rw [List.foldl_cons]
    obtain ⟨g1, g2⟩ := chunkStep_bound cs st p h1 h2
    exact ih _ g1 g2

theorem foldl_chunkStep_content (cs : Nat) (hcs : 1 ≤ cs)
    (paras : List (List Char)) :
    ∀ st, contentOf (paras.foldl (chunkStep cs) st).1 ++
        nonWS (paras.foldl (chunkStep cs) st).2 =
      contentOf st.1 ++ nonWS st.2 ++ contentOf paras := by
  induction paras with
  | nil => intro st; simp [contentOf_nil]
  | cons p ps ih =>
    intro st
    rw [List.foldl_cons, ih, chunkStep_content cs hcs, contentOf_cons]
    simp [List.append_assoc]

end ArmaCode

namespace ArmaCode

/-- C7: the claim that no chunk ever exceeds `target_size` is refuted at a
six-character paragraph with `target_size = 4`: the backward terminator walk
starts at the index one past the window (`range(end, ..., -1)` begins at
`end`), so the terminator at position 4 produces the 5-character chunk
"aaaa.". -/
theorem C7_counterexample :
    split_into_chunks c7text 4 = [['a', 'a', 'a', 'a', '.'], ['x']] ∧
    4 < (['a', 'a', 'a', 'a', '.'] : List Char).length := by
  constructor
  · decide
  · decide

/-- C7 (amended): for every input text and every target_size > 0, every
chunk produced by the chunker has length at most target_size + 1.  The
walk-back examines the position one past the `target_size` boundary, so a
sentence terminator sitting exactly there yields a chunk one character over
budget; in every other case the bound target_size holds. -/
theorem C7_chunk_length_bound (text : List Char) (cs : Nat) (hcs : 1 ≤ cs) :
    ∀ chunk ∈ split_into_chunks text cs, chunk.length ≤ cs + 1 := by
  intro chunk hmem
  by_cases ht : text = []
  · rw [ht] at hmem
    simp [split_into_chunks] at hmem
  · simp only [split_into_chunks, if_neg ht] at hmem
    obtain ⟨g1, g2⟩ := foldl_chunkStep_bound cs
      (((splitParas text).map pyStrip).filter (fun p => ¬ p = [])) ([], [])
      (by intro c hc; simp at hc) (by simp)
    by_cases h2 : ((((splitParas text).map pyStrip).filter
        (fun p => ¬ p = [])).foldl (chunkStep cs) ([], [])).2 = []
    · rw [if_pos h2] at hmem
      exact g1 chunk hmem
    · rw [if_neg h2] at hmem
      rcases List.mem_append.mp hmem with h | h
      · exact g1 chunk h
      · simp only [List.mem_singleton] at h
        subst h
        exact g2

/-- Witness for C7_chunk_length_bound at the concrete input c7text with
target_size 4. -/
theorem C7_chunk_length_bound_witness :
    1 ≤ 4 ∧ (['a', 'a', 'a', 'a', '.'] : List Char).length ≤ 4 + 1 :=
  ⟨by decide, C7_chunk_length_bound c7text 4 (by decide)
    ['a', 'a', 'a', 'a', '.'] (by decide)⟩

/-- C8: for every input text and positive chunk budget, concatenating the
chunks produced by the chunker and ignoring whitespace reproduces exactly
the original text's non-whitespace characters in their original order. -/
theorem C8_chunking_preserves_content (text : List Char) (cs : Nat)
    (hcs : 1 ≤ cs) :
    contentOf (split_into_chunks text cs) = nonWS text := by
  by_cases ht : text = []
  · rw [ht]
    simp [split_into_chunks, contentOf, nonWS]
  · simp only [split_into_chunks, if_neg ht]
    have hfold := foldl_chunkStep_content cs hcs
      (((splitParas text).map pyStrip).filter (fun p => ¬ p = [])) ([], [])
    have hparas : contentOf (((splitParas text).map pyStrip).filter
        (fun p => ¬ p = [])) = nonWS text := by
      rw [contentOf_stripFilter, contentOf_splitParas]
    have hnw : nonWS ([] : List Char) = [] := rfl
    simp only [contentOf_nil, hnw, List.nil_append] at hfold
    by_cases h2 : ((((splitParas text).map pyStrip).filter
        (fun p => ¬ p = [])).foldl (chunkStep cs) ([], [])).2 = []
    · rw [if_pos h2]
      rw [h2, hnw, List.append_nil] at hfold
      exact hfold.trans hparas
    · rw [if_neg h2, contentOf_append, contentOf_cons, contentOf_nil,
        List.append_nil]
      exact hfold.trans hparas

/-- Witness for C8_chunking_preserves_content at a concrete input. -/
theorem C8_chunking_preserves_content_witness :
    1 ≤ 3 ∧ contentOf (split_into_chunks (String.toList "ab cd") 3) =
      nonWS (String.toList "ab cd") :=
  ⟨by decide, C8_chunking_preserves_content (String.toList "ab cd") 3 (by decide)⟩

end ArmaCode

namespace ArmaCode

/-- C1: in every run of process_material in which at least one of the four
generation calls fails, no Summary, Notes, Flashcard or QuizQuestion rows
are written, the embedding step is never entered, and the material ends in
failed status with the first captured failure's message as the terminal
error. -/
theorem C1_pipeline_all_or_nothing
    (embed_batch : List (List Char) → List (List ℚ)) (chunk_size : Nat)
    (full_text : List Char) (r : GenResults) (st : MaterialState)
    (e : String) (h : firstFailure r = some e) :
    (process_material embed_batch chunk_size full_text r st).summary =
      st.summary ∧
    (process_material embed_batch chunk_size full_text r st).notes =
      st.notes ∧
    (process_material embed_batch chunk_size full_text r st).flashcards =
      st.flashcards ∧
    (process_material embed_batch chunk_size full_text r st).quizzes =
      st.quizzes ∧
    (process_material embed_batch chunk_size full_text r st).embeddings =
      st.embeddings ∧
    (process_material embed_batch chunk_size full_text r st).embedStepRan =
      st.embedStepRan ∧
    (process_material embed_batch chunk_size full_text r st).status =
      ProcessingStatus.failed ∧
    (process_material embed_batch chunk_size full_text r st).error = some e := by
  rcases r with ⟨s, n, f, q⟩
  cases s <;> cases n <;> cases f <;> cases q <;>
    simp_all [firstFailure, process_material]

/-- Witness for C1_pipeline_all_or_nothing: a run whose quiz call raised. -/
theorem C1_pipeline_all_or_nothing_witness :
    firstFailure genQuizFails = some "boom" ∧
    ((process_material embedBatchNil 500 [] genQuizFails st0).summary =
        st0.summary ∧
      (process_material embedBatchNil 500 [] genQuizFails st0).notes =
        st0.notes ∧
      (process_material embedBatchNil 500 [] genQuizFails st0).flashcards =
        st0.flashcards ∧
      (process_material embedBatchNil 500 [] genQuizFails st0).quizzes =
        st0.quizzes ∧
      (process_material embedBatchNil 500 [] genQuizFails st0).embeddings =
        st0.embeddings ∧
      (process_material embedBatchNil 500 [] genQuizFails st0).embedStepRan =
        st0.embedStepRan ∧
      (process_material embedBatchNil 500 [] genQuizFails st0).status =
        ProcessingStatus.failed ∧
      (process_material embedBatchNil 500 [] genQuizFails st0).error =
        some "boom") :=
  ⟨by decide,
    C1_pipeline_all_or_nothing embedBatchNil 500 [] genQuizFails st0 "boom"
      (by decide)⟩

/-- C5: after a successful run, the claim that the embedding set is exactly
one row per chunk fails for a full_text that yields no chunks: the early
return in `_create_embeddings` fires before the delete, so a prior run's
rows survive.  Here a successful run over an empty text leaves the stale
row in place. -/
theorem C5_counterexample :
    (process_material embedBatchNil 500 [] genAllOk stStale).status =
      ProcessingStatus.completed ∧
    split_into_chunks [] 500 = [] ∧
    (process_material embedBatchNil 500 [] genAllOk stStale).embeddings =
      [staleEmb] := by
  refine ⟨by decide, by decide, by decide⟩

/-- C5 (amended): after every successful run whose chunking yields at least
one chunk, the stored embedding set is exactly one row per chunk, indexed
0..n-1 in chunk order, carrying the batch-embedding vectors, with no rows
from a prior run remaining; when the chunking yields no chunks the prior
set is left untouched instead. -/
theorem C5_embeddings_replaced
    (embed_batch : List (List Char) → List (List ℚ)) (chunk_size : Nat)
    (full_text : List Char) (st : MaterialState) (s n : String)
    (f : List FlashRow) (q : List QuizRow)
    (hlen : (embed_batch (split_into_chunks full_text chunk_size)).length =
      (split_into_chunks full_text chunk_size).length)
    (hne : split_into_chunks full_text chunk_size ≠ []) :
    (process_material embed_batch chunk_size full_text
        ⟨.ok s, .ok n, .ok f, .ok q⟩ st).embeddings.map EmbRow.chunk_index =
      List.range (split_into_chunks full_text chunk_size).length ∧
    (process_material embed_batch chunk_size full_text
        ⟨.ok s, .ok n, .ok f, .ok q⟩ st).embeddings.map EmbRow.chunk_text =
      split_into_chunks full_text chunk_size ∧
    (process_material embed_batch chunk_size full_text
        ⟨.ok s, .ok n, .ok f, .ok q⟩ st).embeddings.map EmbRow.embedding =
      embed_batch (split_into_chunks full_text chunk_size) ∧
    (process_material embed_batch chunk_size full_text
        ⟨.ok s, .ok n, .ok f, .ok q⟩ st).status =
      ProcessingStatus.completed := by
  have hred : (process_material embed_batch chunk_size full_text
      ⟨.ok s, .ok n, .ok f, .ok q⟩ st).embeddings =
      (((split_into_chunks full_text chunk_size).zip
        (embed_batch (split_into_chunks full_text chunk_size))).enum).map
        (fun p => ⟨p.1, p.2.1, p.2.2⟩) := by
    simp only [process_material, save_all_results, create_embeddings,
      if_neg hne]
  have hz : ((split_into_chunks full_text chunk_size).zip
      (embed_batch (split_into_chunks full_text chunk_size))).length =
      (split_into_chunks full_text chunk_size).length := by
    rw [List.length_zip, hlen, Nat.min_self]
  refine ⟨?_, ?_, ?_, ?_⟩
  · rw [hred, List.map_map]
    have e1 : (EmbRow.chunk_index ∘
        fun p : Nat × (List Char × List ℚ) =>
          (⟨p.1, p.2.1, p.2.2⟩ : EmbRow)) = Prod.fst := rfl
    rw [e1, List.enum_map_fst, hz]
  · rw [hred, List.map_map]
    have e2 : (EmbRow.chunk_text ∘
        fun p : Nat × (List Char × List ℚ) =>
          (⟨p.1, p.2.1, p.2.2⟩ : EmbRow)) = (Prod.fst ∘ Prod.snd) := rfl
    rw [e2, ← List.map_map, List.enum_map_snd]
    exact List.map_fst_zip _ _ (le_of_eq hlen.symm)
  · rw [hred, List.map_map]
    have e3 : (EmbRow.embedding ∘
        fun p : Nat × (List Char × List ℚ) =>
          (⟨p.1, p.2.1, p.2.2⟩ : EmbRow)) = (Prod.snd ∘ Prod.snd) := rfl
    rw [e3, ← List.map_map, List.enum_map_snd]
    exact List.map_snd_zip _ _ (le_of_eq hlen)
  · simp [process_material, save_all_results, create_embeddings]

/-- Witness for C5_embeddings_replaced at a concrete two-character text. -/
theorem C5_embeddings_replaced_witness :
    (embedBatchNil (split_into_chunks (String.toList "hi") 10)).length =
      (split_into_chunks (String.toList "hi") 10).length ∧
    split_into_chunks (String.toList "hi") 10 ≠ [] ∧
    ((process_material embedBatchNil 10 (String.toList "hi")
        ⟨.ok "s", .ok "n", .ok [], .ok []⟩ stStale).embeddings.map
          EmbRow.chunk_index =
      List.range (split_into_chunks (String.toList "hi") 10).length ∧
    (process_material embedBatchNil 10 (String.toList "hi")
        ⟨.ok "s", .ok "n", .ok [], .ok []⟩ stStale).embeddings.map
          EmbRow.chunk_text =
      split_into_chunks (String.toList "hi") 10 ∧
    (process_material embedBatchNil 10 (String.toList "hi")
        ⟨.ok "s", .ok "n", .ok [], .ok []⟩ stStale).embeddings.map
          EmbRow.embedding =
      embedBatchNil (split_into_chunks (String.toList "hi") 10) ∧
    (process_material embedBatchNil 10 (String.toList "hi")
        ⟨.ok "s", .ok "n", .ok [], .ok []⟩ stStale).status =
      ProcessingStatus.completed) :=
  ⟨by decide, by decide,
    C5_embeddings_replaced embedBatchNil 10 (String.toList "hi") stStale
      "s" "n" [] [] (by decide) (by decide)⟩

end ArmaCode

namespace ArmaCode

/-- Malformed quiz items contribute nothing: the validated batch equals the
validation of the well-formed sub-batch alone. -/
theorem validateQuiz_drops_malformed (items : List RawQuizItem) :
    validateQuiz items =
      validateQuiz (items.filter (fun raw => (validateQuizItem raw).isSome)) := by
  induction items with
  | nil => rfl
  | cons raw rest ih =>
    cases hv : validateQuizItem raw with
    | none =>
      simp only [validateQuiz, List.filterMap_cons, List.filter_cons, hv,
        Option.isSome_none, Bool.false_eq_true, if_false] at ih ⊢
      exact ih
    | some v =>
      simp only [validateQuiz, List.filterMap_cons, List.filter_cons, hv,
        Option.isSome_some, if_true] at ih ⊢
      rw [ih]

/-- C6: every quiz item surviving validation has `correct_option` equal to
the literal text of one of its four options; a complete item whose answer
is a bare letter is coerced to the matching option text and kept; malformed
items are silently dropped without affecting the valid remainder of the
batch. -/
theorem C6_quiz_validation (items : List RawQuizItem) :
    (∀ item ∈ validateQuiz items,
      item.correct_option = item.option_a ∨
      item.correct_option = item.option_b ∨
      item.correct_option = item.option_c ∨
      item.correct_option = item.option_d) ∧
    (∀ raw ∈ items, ∀ qq a b c d ℓ sel : String,
      (ℓ, sel) ∈ [("a", a), ("b", b), ("c", c), ("d", d)] →
      raw = ⟨some qq, some a, some b, some c, some d, some ℓ⟩ →
      (⟨qq, a, b, c, d, sel⟩ : QuizRow) ∈ validateQuiz items) ∧
    validateQuiz items =
      validateQuiz (items.filter (fun raw => (validateQuizItem raw).isSome)) := by
  refine ⟨?_, ?_, validateQuiz_drops_malformed items⟩
  · intro item hitem
    obtain ⟨raw, hmem, hv⟩ := List.mem_filterMap.mp hitem
    rcases raw with ⟨oq, oa, ob, oc, od, oco⟩
    rcases oq with _ | qq <;> rcases oa with _ | a <;> rcases ob with _ | b <;>
      rcases oc with _ | c <;> rcases od with _ | d <;>
      rcases oco with _ | co <;> simp only [validateQuizItem] at hv <;>
      try exact Option.noConfusion hv
    rw [ite_eq_iff] at hv
    rcases hv with ⟨hcond, heq⟩ | ⟨_, heq⟩
    · have heq' := Option.some.inj heq
      subst heq'
      exact hcond
    · exact Option.noConfusion heq
  · intro raw hmem qq a b c d ℓ sel hpair hraw
    subst hraw
    refine List.mem_filterMap.mpr ⟨_, hmem, ?_⟩
    simp only [List.mem_cons, List.not_mem_nil, or_false,
      Prod.mk.injEq] at hpair
    rcases hpair with ⟨h1, h2⟩ | ⟨h1, h2⟩ | ⟨h1, h2⟩ | ⟨h1, h2⟩ <;>
      subst h1 <;> subst h2 <;> simp [validateQuizItem]

/-- Witness for C6_quiz_validation: a batch holding one well-formed item
with a bare-letter answer and one malformed item yields exactly the coerced
well-formed item. -/
theorem C6_quiz_validation_witness :
    (⟨"q", "x", "y", "z", "w", "x"⟩ : QuizRow) ∈ validateQuiz [rawGood, rawBad] :=
  (C6_quiz_validation [rawGood, rawBad]).2.1 rawGood (by decide)
    "q" "x" "y" "z" "w" "a" "x" (by decide) (by decide)

end ArmaCode

namespace ArmaCode

/-- C2 (amended): every retrieval returns either a blank-line concatenation
of stored chunk texts, each strictly below the 0.70 distance threshold and
listed in ascending distance order (most relevant first), or the fallback
context — the first 5000 characters of the material's full text when it has
any, and a fixed placeholder message when it has none; no input makes the
retrieval surface an error. -/
theorem C2_retrieval_threshold_or_fallback (stored : List (List Char × ℚ))
    (backendOk : Bool) (full_text : List Char) :
    (∃ kept : List (List Char × ℚ),
      kept ≠ [] ∧
      (∀ r ∈ kept, r.2 < DISTANCE_THRESHOLD) ∧
      (∀ r ∈ kept, r ∈ stored) ∧
      kept.Pairwise distLE ∧
      find_relevant_context stored backendOk full_text =
        joinSep (kept.map Prod.fst)) ∨
    find_relevant_context stored backendOk full_text =
      fallback_context full_text := by
  cases backendOk with
  | false => exact Or.inr rfl
  | true =>
    by_cases hrows : vectorQuery stored 5 = []
    · exact Or.inr (by simp [find_relevant_context, hrows])
    · by_cases hrel : (vectorQuery stored 5).filter
          (fun r => r.2 < DISTANCE_THRESHOLD) = []
      · exact Or.inr (by simp [find_relevant_context, hrows, hrel])
      · refine Or.inl ⟨(vectorQuery stored 5).filter
          (fun r => r.2 < DISTANCE_THRESHOLD), hrel, ?_, ?_, ?_, ?_⟩
        · intro r hr
          have := List.of_mem_filter hr
          exact of_decide_eq_true this
        · intro r hr
          have h1 : r ∈ vectorQuery stored 5 :=
            (List.filter_sublist _).subset hr
          have h2 : r ∈ List.insertionSort distLE stored :=
            (List.take_sublist _ _).subset h1
          exact (List.perm_insertionSort distLE stored).subset h2
        · have hs : (List.insertionSort distLE stored).Pairwise distLE :=
            List.sorted_insertionSort distLE stored
          exact List.Pairwise.sublist ((List.filter_sublist _).trans
            (List.take_sublist _ _)) hs
        · simp [find_relevant_context, hrows, hrel]

/-- C2: the claim that the fallback is always the first N characters of the
material's raw full_text fails for a material with empty text: the source
returns a fixed placeholder message instead, which differs both from the
empty 5000-character prefix and from any concatenation of (zero) stored
chunks. -/
theorem C2_counterexample :
    find_relevant_context [] true [] =
      String.toList "No content available for this material." ∧
    find_relevant_context [] true [] ≠ List.take 5000 ([] : List Char) ∧
    find_relevant_context [] true [] ≠ joinSep [] := by
  refine ⟨by decide, by decide, by decide⟩

end ArmaCode

namespace ArmaCode

/-! ### Cosine distance -/

theorem sumSq_nonneg (a : List ℝ) : 0 ≤ (a.map (fun x => x * x)).sum := by
  apply List.sum_nonneg
  intro x hx
  obtain ⟨y, _, rfl⟩ := List.mem_map.mp hx
  exact mul_self_nonneg y

theorem sumSq_eq_zero_iff (a : List ℝ) :
    (a.map (fun x => x * x)).sum = 0 ↔ ∀ x ∈ a, x = 0 := by
  induction a with
  | nil => simp
  | cons x t ih =>
    simp only [List.map_cons, List.sum_cons, List.mem_cons]
    rw [add_eq_zero_iff_of_nonneg (mul_self_nonneg x) (sumSq_nonneg t),
      mul_self_eq_zero, ih]
    constructor
    · rintro ⟨h1, h2⟩ y hy
      rcases hy with rfl | hy
      · exact h1
      · exact h2 y hy
    · intro h
      exact ⟨h x (Or.inl rfl), fun y hy => h y (Or.inr hy)⟩

theorem sqrt_sumSq_eq_zero_iff (a : List ℝ) :
    Real.sqrt ((a.map (fun x => x * x)).sum) = 0 ↔ ∀ x ∈ a, x = 0 := by
  rw [Real.sqrt_eq_zero (sumSq_nonneg a), sumSq_eq_zero_iff]

/-- C10: the cosine-distance helper is total: it returns exactly 1 whenever
either vector has zero norm (equivalently, over the reals, all of its
components are zero — the division is guarded), and 1 minus the normalized
dot product otherwise, with a provably nonzero denominator. -/
theorem C10_cosine_distance_total (a b : List ℝ) :
    ((∀ x ∈ a, x = 0) ∨ (∀ x ∈ b, x = 0) → cosine_distance a b = 1) ∧
    ((¬ ∀ x ∈ a, x = 0) → (¬ ∀ x ∈ b, x = 0) →
      Real.sqrt ((a.map (fun x => x * x)).sum) *
        Real.sqrt ((b.map (fun x => x * x)).sum) ≠ 0 ∧
      cosine_distance a b =
        1 - ((a.zip b).map (fun p => p.1 * p.2)).sum /
          (Real.sqrt ((a.map (fun x => x * x)).sum) *
            Real.sqrt ((b.map (fun x => x * x)).sum))) := by
  constructor
  · intro h
    rcases h with h | h
    · simp only [cosine_distance]
      rw [if_pos (Or.inl ((sqrt_sumSq_eq_zero_iff a).mpr h))]
    · simp only [cosine_distance]
      rw [if_pos (Or.inr ((sqrt_sumSq_eq_zero_iff b).mpr h))]
  · intro ha hb
    have ha' : Real.sqrt ((a.map (fun x => x * x)).sum) ≠ 0 :=
      fun h => ha ((sqrt_sumSq_eq_zero_iff a).mp h)
    have hb' : Real.sqrt ((b.map (fun x => x * x)).sum) ≠ 0 :=
      fun h => hb ((sqrt_sumSq_eq_zero_iff b).mp h)
    refine ⟨mul_ne_zero ha' hb', ?_⟩
    simp only [cosine_distance]
    rw [if_neg (not_or.mpr ⟨ha', hb'⟩)]

/-- Witness for C10_cosine_distance_total: a zero vector against [1]. -/
theorem C10_cosine_distance_total_witness :
    cosine_distance [(0 : ℝ)] [(1 : ℝ)] = 1 :=
  (C10_cosine_distance_total [0] [1]).1 (Or.inl (by simp))

/-- The cosine distance of the one-dimensional unit vector to itself is 0. -/
theorem cosine_distance_unit_self :
    cosine_distance [(1 : ℝ)] [(1 : ℝ)] = 0 := by
  simp [cosine_distance, Real.sqrt_one]

/-! ### Semantic answer cache and the tutor turn -/

/-- C3: whenever the question's embedding lies within the cache similarity
threshold of some stored entry for the material, send_message answers from
the cache: it returns a matching entry's cached answer, does not invoke
chat_with_context, and still appends both the user turn and the assistant
turn to the conversation history. -/
theorem C3_cache_hit_skips_generation (entries : List CacheEntry)
    (r : RedisModel) (qe : List ℝ) (u c ans : String) (msgs : List TutorMsg)
    (hconn : r.conn = some entries) (hkeys : r.keysOk = true)
    (hhit : ∃ e ∈ entries,
      cosine_distance qe e.embedding < SEMANTIC_SIM_THRESHOLD) :
    ∃ e ∈ entries,
      cosine_distance qe e.embedding < SEMANTIC_SIM_THRESHOLD ∧
      (send_message r qe u c ans msgs).answer = e.answer ∧
      (send_message r qe u c ans msgs).genCalled = false ∧
      (send_message r qe u c ans msgs).messages =
        msgs ++ [⟨"user", u, c⟩, ⟨"assistant", e.answer, c⟩] := by
  have hsome : (entries.find? fun e =>
      decide (cosine_distance qe e.embedding <
        SEMANTIC_SIM_THRESHOLD)).isSome := by
    rw [List.find?_isSome]
    obtain ⟨e, he, hd⟩ := hhit
    exact ⟨e, he, decide_eq_true hd⟩
  obtain ⟨e, hfind⟩ := Option.isSome_iff_exists.mp hsome
  have hmem := List.mem_of_find?_eq_some hfind
  have hp := @List.find?_some CacheEntry
    (fun e => decide (cosine_distance qe e.embedding <
      SEMANTIC_SIM_THRESHOLD)) e entries hfind
  have hdist := of_decide_eq_true hp
  have hcheck : check_semantic_cache r qe = some e.answer := by
    simp [check_semantic_cache, hconn, hkeys, hfind]
  refine ⟨e, hmem, hdist, ?_, ?_, ?_⟩ <;> simp [send_message, hcheck]

/-- Witness for C3_cache_hit_skips_generation: a cached entry at distance 0
from the query answers the turn without generation. -/
theorem C3_cache_hit_skips_generation_witness :
    (send_message cacheR1 [1] "q" "chat" "gen" []).answer = "paris" ∧
    (send_message cacheR1 [1] "q" "chat" "gen" []).genCalled = false ∧
    (send_message cacheR1 [1] "q" "chat" "gen" []).messages =
      [⟨"user", "q", "chat"⟩, ⟨"assistant", "paris", "chat"⟩] := by
  have hd : cosine_distance [(1 : ℝ)] entryParis.embedding <
      SEMANTIC_SIM_THRESHOLD := by
    show cosine_distance [(1 : ℝ)] [(1 : ℝ)] < SEMANTIC_SIM_THRESHOLD
    rw [cosine_distance_unit_self, SEMANTIC_SIM_THRESHOLD]
    norm_num
  obtain ⟨e, he, hdist, ha, hg, hm⟩ :=
    C3_cache_hit_skips_generation [entryParis] cacheR1 [1] "q" "chat" "gen"
      [] rfl rfl ⟨entryParis, by simp, hd⟩
  have he' : e = entryParis := by simpa using he
  subst he'
  refine ⟨by simpa [entryParis] using ha, hg, by simpa [entryParis] using hm⟩

/-- C9: when the cache client is unavailable or the keys() call raises,
lookup misses; when the client is unavailable or setex raises, store leaves
the cache untouched; in the degraded case send_message still generates and
returns the same answer and history as a run with no cache at all — cache
failure is never surfaced. -/
theorem C9_cache_degrades_silently (r : RedisModel) (qe : List ℝ)
    (u c ans : String) (msgs : List TutorMsg) :
    (r.conn = none ∨ r.keysOk = false →
      check_semantic_cache r qe = none ∧
      (send_message r qe u c ans msgs).answer = ans ∧
      (send_message r qe u c ans msgs).genCalled = true ∧
      (send_message r qe u c ans msgs).messages =
        msgs ++ [⟨"user", u, c⟩, ⟨"assistant", ans, c⟩] ∧
      (send_message r qe u c ans msgs).answer =
        (send_message noCacheRedis qe u c ans msgs).answer ∧
      (send_message r qe u c ans msgs).messages =
        (send_message noCacheRedis qe u c ans msgs).messages) ∧
    (r.conn = none ∨ r.setOk = false →
      store_semantic_cache r qe ans = r) := by
  have hnc : check_semantic_cache noCacheRedis qe = none := rfl
  constructor
  · intro h
    have hmiss : check_semantic_cache r qe = none := by
      rcases h with h | h
      · simp [check_semantic_cache, h]
      · rcases hc : r.conn with _ | entries
        · simp [check_semantic_cache, hc]
        · simp [check_semantic_cache, hc, h]
    refine ⟨hmiss, ?_, ?_, ?_, ?_, ?_⟩ <;> simp [send_message, hmiss, hnc]
  · intro h
    rcases h with h | h
    · simp [store_semantic_cache, h]
    · rcases hc : r.conn with _ | entries
      · simp [store_semantic_cache, hc]
      · simp [store_semantic_cache, hc, h]

/-- Witness for C9_cache_degrades_silently: a run against an unavailable
cache client. -/
theorem C9_cache_degrades_silently_witness :
    (check_semantic_cache noCacheRedis [1] = none ∧
      (send_message noCacheRedis [1] "q" "chat" "gen" []).answer = "gen" ∧
      (send_message noCacheRedis [1] "q" "chat" "gen" []).genCalled = true ∧
      (send_message noCacheRedis [1] "q" "chat" "gen" []).messages =
        [] ++ [⟨"user", "q", "chat"⟩, ⟨"assistant", "gen", "chat"⟩] ∧
      (send_message noCacheRedis [1] "q" "chat" "gen" []).answer =
        (send_message noCacheRedis [1] "q" "chat" "gen" []).answer ∧
      (send_message noCacheRedis [1] "q" "chat" "gen" []).messages =
        (send_message noCacheRedis [1] "q" "chat" "gen" []).messages) ∧
    store_semantic_cache noCacheRedis [1] "gen" = noCacheRedis :=
  ⟨(C9_cache_degrades_silently noCacheRedis [1] "q" "chat" "gen" []).1
      (Or.inl rfl),
    (C9_cache_degrades_silently noCacheRedis [1] "q" "chat" "gen" []).2
      (Or.inl rfl)⟩

end ArmaCode
